import Mathlib

/-!
Shallow embedding of the hash table engine in src/hash_table.c and
src/hash_table.h, together with proofs settling the frozen claims.

Modelling conventions, justified against the C source:
* A key is the list of bytes actually read from the key buffer, so the
  pair (pKey, key_size) becomes one value of type Key and key_size is the
  length of that list.
* Pointers that may be NULL at the public boundary are modelled with
  Option where a claim depends on the NULL branch (ht_has_key,
  ht_strk_has_key).  The core operations are modelled on initialized
  tables; ht_init always installs default_hash_impl, and
  ht_set_hash_func rejects a NULL function, so the pfnHash field is
  modelled as a total function (the pfnHash == NULL guard inside
  ht_insert can then never fire).
* Values are modelled by their observable content (a Nat); for the
  HT_TRANSIENT policy the C code stores a freshly malloc-ed copy of the
  data bytes, which has the same content, so the stored pData is the
  same Nat.
* Machine integers: ht_size_t is uint32_t and ht_hash_t is uint64_t, so
  size arithmetic is taken modulo 2 ^ 32 and the default hash is
  computed modulo 2 ^ 64.  HT_NO_SIZE is (-1) cast to uint32_t, that is
  2 ^ 32 - 1.
* The bucket array ppEntries (length = capacity) becomes a list of
  chains, each chain being the linked list hanging off one bucket head,
  in link order.  The capacity field always equals the array length in
  the C code, so capacity is defined as the length of that list.
* Undefined behaviour (a NULL or indeterminate dereference) is modelled
  by returning none respectively a dedicated crash marker; the C code
  has no defined result there.
* Each entry carries a ghost field stamp, set to a ghost counter value
  at insertion time and never read by any operation; it only serves to
  state the per-chain insertion-order invariant.
-/

set_option autoImplicit false

namespace HashTableC

open List

/-! Return codes and constants from src/hash_table.h. -/

def HT_OK : Int := 0
def HT_NOT_FOUND : Int := 10
def HT_DUPLICATE : Int := 11
def HT_ALLOC_ERR : Int := 12
def HT_ARG_NULL : Int := 13
def HT_MISUSE : Int := 15

def HT_DEFAULT_CAP : Nat := 31
def HT_GROW_FACT : Nat := 2

/-- Modulus of the uint32_t type ht_size_t. -/
def U32 : Nat := 2 ^ 32

/-- Modulus of the uint64_t type ht_hash_t. -/
def U64 : Nat := 2 ^ 64

/-- HT_NO_SIZE is the int constant -1; assigned to a uint32_t output it
reads back as 2 ^ 32 - 1. -/
def htNoSize : Nat := U32 - 1

/-- A key is the byte sequence read from (pKey, key_size). -/
abbrev Key := List Nat

/-- A hash function ht_hash_func_t consumes the key bytes and yields a
hash value. -/
abbrev HashFn := Key → Nat

/-- The ht_free_func_t argument of ht_insert: HT_TRANSIENT (NULL),
HT_STATIC ((void*)-1), or a caller-supplied free function identified by
an opaque id. -/
inductive FreeFn where
  | transient
  | static
  | custom (id : Nat)
deriving DecidableEq

/-- The struct ht_entry.  The pNext link is represented by the position
in the chain list.  stamp is a ghost field recording the insertion
sequence number; no operation reads it. -/
structure Entry where
  pKey : Key
  pData : Nat
  data_size : Nat
  pfnFree : FreeFn
  hash : Nat
  stamp : Nat
deriving DecidableEq

/-- The struct hash_table.  capacity always equals the length of the
bucket array in the C code, so it is derived rather than stored.
nextStamp is the ghost insertion counter. -/
structure Table where
  buckets : List (List Entry)
  size : Nat
  pfnHash : HashFn
  nextStamp : Nat

/-- capacity field: the bucket array length. -/
def Table.capacity (t : Table) : Nat := t.buckets.length

/-- Chain hanging off bucket i (empty for an out-of-range index). -/
def bucketAt (bs : List (List Entry)) (i : Nat) : List Entry :=
  (bs[i]?).getD []

/-- default_hash_impl: the SDBM running hash over the key bytes,
  hash = raw[i] + (hash << 6) + (hash << 16) - hash
on uint64_t.  The pre-reduction value b + 64*h + 65536*h - h is
nonnegative, so Nat subtraction agrees with the C wrap-around result
modulo 2 ^ 64. -/
def default_hash_impl (key : Key) : Nat :=
  key.foldl (fun h b => (b % 256 + h * 64 + h * 65536 - h) % U64) 0

/-- place_item: append the entry to the tail of the chain of bucket
(hash mod capacity); an empty bucket is the degenerate case of the tail
append. -/
def place_item (bs : List (List Entry)) (e : Entry) : List (List Entry) :=
  bs.set (e.hash % bs.length) (bucketAt bs (e.hash % bs.length) ++ [e])

/-- grow_table (allocation assumed to succeed): allocate a zeroed array
of capacity * HT_GROW_FACT chains and re-place every entry of every old
bucket, scanning buckets in index order and each chain head to tail,
with the pNext link of each moved entry cleared first. -/
def grow_table (t : Table) : Table :=
  { t with
    buckets :=
      t.buckets.flatten.foldl place_item
        (List.replicate (t.capacity * HT_GROW_FACT) []) }

/-- The growth trigger (pHt->size + 1) > pHt->capacity * HT_MAX_CAP with
HT_MAX_CAP = 0.7, stated exactly as 10 * (size + 1) > 7 * capacity.  The
C comparison is evaluated in double precision; for every capacity
reachable from ht_init (31 * 2 ^ k, never a multiple of 10) the exact
value 7 * capacity / 10 is at fractional distance at least 1 / 5 from
an integer while the rounding error of capacity * 0.7 stays far below
that, so the double comparison and this rational comparison agree. -/
def growNeeded (size cap : Nat) : Bool := decide (10 * (size + 1) > 7 * cap)

/-- hash_exists: scan the chain of bucket (hash mod capacity) and return
the first entry whose cached hash equals the given hash (the C function
returns 1 and writes that entry through ppFound_entry), or none (the C
function returns 0). -/
def hash_exists (t : Table) (hash : Nat) : Option Entry :=
  (bucketAt t.buckets (hash % t.capacity)).find? (fun e => e.hash == hash)

/-- ht_get_item on an initialized table with non-NULL key and output
pointers; the two output parameters become return components.  On a miss
the C code writes NULL and HT_NO_SIZE through the output pointers. -/
def ht_get_item (t : Table) (pKey : Key) : Int × Option Nat × Nat :=
  match hash_exists t (t.pfnHash pKey) with
  | some e => (HT_OK, some e.pData, e.data_size)
  | none => (HT_NOT_FOUND, none, htNoSize)

/-- ht_get_size, including the NULL-handle sentinel. -/
def ht_get_size (pHt : Option Table) : Nat :=
  match pHt with
  | none => htNoSize
  | some t => t.size

/-- ht_has_key, including the NULL guards: any NULL pointer yields 0,
otherwise 1 exactly when hash_exists finds the hash of the key.  The C
function only reads the table. -/
def ht_has_key (pHt : Option Table) (pKey : Option Key) : Int :=
  match pHt, pKey with
  | some t, some k => if (hash_exists t (t.pfnHash k)).isSome then 1 else 0
  | _, _ => 0

/-- ht_strk_has_key: a NULL string yields HT_ARG_NULL, otherwise the
string is forwarded with its terminator byte included (STRLEN_P1). -/
def ht_strk_has_key (pHt : Option Table) (pzKey : Option Key) : Int :=
  match pzKey with
  | none => HT_ARG_NULL
  | some s => ht_has_key pHt (some (s ++ [0]))

/-- ht_init (allocation assumed to succeed): bucket array of
HT_DEFAULT_CAP empty chains, size zero, default hash function. -/
def ht_init : Table :=
  { buckets := List.replicate HT_DEFAULT_CAP []
    size := 0
    pfnHash := default_hash_impl
    nextStamp := 0 }

/-- ht_insert on an initialized table with non-NULL arguments and all
allocations succeeding: reject a present hash as HT_DUPLICATE, grow when
the load-factor trigger fires, then build the entry (key bytes copied,
data copied under the transient policy) and append it to its chain. -/
def ht_insert (t : Table) (pKey : Key) (pData : Nat) (data_size : Nat)
    (pfnFree : FreeFn) : Int × Table :=
  let hash := t.pfnHash pKey
  if (hash_exists t hash).isSome then (HT_DUPLICATE, t)
  else
    let t1 := if growNeeded t.size t.capacity then grow_table t else t
    let e : Entry :=
      { pKey := pKey, pData := pData, data_size := data_size
        pfnFree := pfnFree, hash := hash, stamp := t1.nextStamp }
    (HT_OK,
      { buckets := place_item t1.buckets e
        size := (t1.size + 1) % U32
        pfnHash := t1.pfnHash
        nextStamp := t1.nextStamp + 1 })

/-- Outcome of ht_insert under an explicit allocation oracle. -/
inductive InsOutcome where
  | ret (rc : Int) (t : Table)
  | crash
deriving Inhabited

/-- ht_insert with an allocation oracle: the n-th Bool says whether the
n-th allocation call (grow_table calloc, entry malloc, key malloc,
transient data malloc, in program order) succeeds; an exhausted oracle
means success.  Two branches reproduce undefined behaviour of the C
code faithfully:
* if the key malloc fails, the error path evaluates
  new_entry->pData != NULL although pData is still uninitialized
  (it is assigned only after the key copy), an indeterminate read, so
  the model crashes;
* if the transient data malloc fails, the check after it reads
  if(new_entry == NULL) - the wrong variable, necessarily non-NULL at
  that point - so the failure is not caught and memcpy writes through
  the NULL pData, so the model crashes. -/
def ht_insert_alloc (t : Table) (pKey : Key) (pData : Nat)
    (data_size : Nat) (pfnFree : FreeFn) (oracle : List Bool) :
    InsOutcome :=
  let hash := t.pfnHash pKey
  if (hash_exists t hash).isSome then InsOutcome.ret HT_DUPLICATE t
  else
    match
      (if growNeeded t.size t.capacity then
        if oracle.headD true then some (grow_table t, oracle.tail)
        else none
      else some (t, oracle)) with
    | none => InsOutcome.ret HT_ALLOC_ERR t
    | some (t1, o1) =>
      if o1.headD true = false then InsOutcome.ret HT_ALLOC_ERR t1
      else
        let o2 := o1.tail
        if o2.headD true = false then InsOutcome.crash
        else
          let o3 := o2.tail
          if pfnFree = FreeFn.transient ∧ o3.headD true = false then
            InsOutcome.crash
          else
            let e : Entry :=
              { pKey := pKey, pData := pData, data_size := data_size
                pfnFree := pfnFree, hash := hash, stamp := t1.nextStamp }
            InsOutcome.ret HT_OK
              { buckets := place_item t1.buckets e
                size := (t1.size + 1) % U32
                pfnHash := t1.pfnHash
                nextStamp := t1.nextStamp + 1 }

/-- Remove the first entry with the given hash from a chain tail (the
walk of ht_remove over pNext links); none when no entry matches. -/
def removeFirstByHash (hash : Nat) : List Entry → Option (List Entry)
  | [] => none
  | e :: es =>
    if e.hash == hash then some es
    else (removeFirstByHash hash es).map (fun es2 => e :: es2)

/-- ht_remove on an initialized table with non-NULL arguments.  The C
code assigns rc = HT_NOT_FOUND when the bucket head is NULL but, for
lack of an else, then falls into if(pEntry->hash == hash) and
dereferences the NULL head: that branch is undefined behaviour, modelled
as none.  Otherwise: a matching head is unlinked, or the chain walk
splices out the first later match, or the walk exhausts the chain with
HT_NOT_FOUND.  size -= 1 on uint32_t is addition of 2 ^ 32 - 1 modulo
2 ^ 32. -/
def ht_remove (t : Table) (pKey : Key) : Option (Int × Table) :=
  let hash := t.pfnHash pKey
  let hash_pos := hash % t.capacity
  match bucketAt t.buckets hash_pos with
  | [] => none
  | e :: rest =>
    if e.hash == hash then
      some (HT_OK,
        { t with buckets := t.buckets.set hash_pos rest
                 size := (t.size + (U32 - 1)) % U32 })
    else
      match removeFirstByHash hash rest with
      | some rest2 =>
        some (HT_OK,
          { t with buckets := t.buckets.set hash_pos (e :: rest2)
                   size := (t.size + (U32 - 1)) % U32 })
      | none => some (HT_NOT_FOUND, t)

/-- ht_set_hash_func on an initialized table; the NULL-function guard is
kept via the Option argument. -/
def ht_set_hash_func (t : Table) (pFn : Option HashFn) : Int × Table :=
  match pFn with
  | none => (HT_ARG_NULL, t)
  | some fn =>
    if t.size > 0 then (HT_MISUSE, t)
    else (HT_OK, { t with pfnHash := fn })

/-! Mutating operations and operation sequences, for reachability and
persistence statements.  ht_get_item, ht_has_key and ht_get_size only
read the table, so they do not occur in traces. -/

/-- One mutating public call. -/
inductive Op where
  | insert (pKey : Key) (pData : Nat) (data_size : Nat) (pfnFree : FreeFn)
  | remove (pKey : Key)
  | setHashFunc (pFn : Option HashFn)

/-- Result state of one call; none when the call runs into undefined
behaviour. -/
def step (t : Table) : Op → Option Table
  | .insert k v ds f => some (ht_insert t k v ds f).2
  | .remove k => (ht_remove t k).map Prod.snd
  | .setHashFunc f => some (ht_set_hash_func t f).2

/-- Run a sequence of calls. -/
def run (t : Table) : List Op → Option Table
  | [] => some t
  | op :: ops =>
    match step t op with
    | none => none
    | some t2 => run t2 ops

/-- Table states reachable from ht_init by public calls. -/
def Reach (t : Table) : Prop := ∃ ops : List Op, run ht_init ops = some t

/-- All live entries, bucket by bucket, chain order within a bucket. -/
def allEntries (t : Table) : List Entry := t.buckets.flatten

/-- Every entry sits in the bucket selected by its cached hash. -/
def wellPlaced (bs : List (List Entry)) : Prop :=
  ∀ i : Nat, i < bs.length → ∀ e ∈ bucketAt bs i, e.hash % bs.length = i

/-- Ghost stamps grow strictly along every chain: chain order is
insertion order. -/
def chainsSorted (bs : List (List Entry)) : Prop :=
  ∀ i : Nat, i < bs.length →
    (bucketAt bs i).Pairwise (fun a b => a.stamp < b.stamp)

/-- Structural invariant of initialized tables. -/
def WF (t : Table) : Prop :=
  0 < t.capacity ∧
  wellPlaced t.buckets ∧
  (allEntries t).Pairwise (fun a b => a.hash ≠ b.hash) ∧
  t.size = (allEntries t).length % U32 ∧
  chainsSorted t.buckets ∧
  ∀ e ∈ allEntries t, e.stamp < t.nextStamp

/-! Basic facts about bucketAt, List.set and flattening. -/

theorem bucketAt_of_lt (bs : List (List Entry)) (i : Nat) (hi : i < bs.length) :
    bucketAt bs i = bs[i] := by
  simp [bucketAt, List.getElem?_eq_getElem hi]

theorem bucketAt_set_self (bs : List (List Entry)) (i : Nat) (c : List Entry)
    (hi : i < bs.length) : bucketAt (bs.set i c) i = c := by
  simp [bucketAt, List.getElem?_set_self hi]

theorem bucketAt_set_ne (bs : List (List Entry)) (i j : Nat) (c : List Entry)
    (hij : i ≠ j) : bucketAt (bs.set i c) j = bucketAt bs j := by
  simp [bucketAt, List.getElem?_set_ne hij]

theorem mem_flatten_of_mem_bucketAt (bs : List (List Entry)) (i : Nat) (e : Entry)
    (hi : i < bs.length) (he : e ∈ bucketAt bs i) : e ∈ bs.flatten := by
  rw [bucketAt_of_lt bs i hi] at he
  exact List.mem_flatten.mpr ⟨bs[i], List.getElem_mem hi, he⟩

theorem exists_bucket_of_mem_flatten (bs : List (List Entry)) (e : Entry)
    (he : e ∈ bs.flatten) : ∃ i, i < bs.length ∧ e ∈ bucketAt bs i := by
  obtain ⟨l, hl, hel⟩ := List.mem_flatten.mp he
  obtain ⟨i, hi, rfl⟩ := List.mem_iff_getElem.mp hl
  exact ⟨i, hi, by rw [bucketAt_of_lt bs i hi]; exact hel⟩

theorem flatten_set (bs : List (List Entry)) :
    ∀ i : Nat, i < bs.length →
      ∃ A B, bs.flatten = A ++ bucketAt bs i ++ B ∧
        ∀ c, (bs.set i c).flatten = A ++ c ++ B := by
  induction bs with
  | nil => intro i hi; simp at hi
  | cons b bs ih =>
    intro i hi
    cases i with
    | zero =>
      refine ⟨[], bs.flatten, ?_, ?_⟩
      · simp [bucketAt]
      · intro c; simp
    | succ i =>
      obtain ⟨A, B, h1, h2⟩ := ih i (by simpa using hi)
      refine ⟨b ++ A, B, ?_, ?_⟩
      · have hb : bucketAt (b :: bs) (i + 1) = bucketAt bs i := by simp [bucketAt]
        rw [hb]
        simp [h1, List.append_assoc]
      · intro c
        have hs : (b :: bs).set (i + 1) c = b :: bs.set i c := rfl
        rw [hs, List.flatten_cons, h2 c]
        simp [List.append_assoc]

theorem bucketAt_replicate_nil (n i : Nat) :
    bucketAt (List.replicate n ([] : List Entry)) i = [] := by
  unfold bucketAt
  cases h : (List.replicate n ([] : List Entry))[i]? with
  | none => rfl
  | some c =>
    have hc := List.getElem?_mem h
    rw [List.eq_of_mem_replicate hc]
    rfl

theorem flatten_replicate_nil (n : Nat) :
    (List.replicate n ([] : List Entry)).flatten = [] := by
  induction n with
  | zero => rfl
  | succ n ih => rw [List.replicate_succ, List.flatten_cons, ih]; rfl

/-! Facts about place_item. -/

theorem length_place (bs : List (List Entry)) (e : Entry) :
    (place_item bs e).length = bs.length := by
  simp [place_item]

theorem flatten_place_perm (bs : List (List Entry)) (e : Entry)
    (hbs : 0 < bs.length) : (place_item bs e).flatten ~ bs.flatten ++ [e] := by
  have hpos : e.hash % bs.length < bs.length := Nat.mod_lt _ hbs
  obtain ⟨A, B, h1, h2⟩ := flatten_set bs _ hpos
  rw [place_item, h2, h1]
  calc A ++ (bucketAt bs (e.hash % bs.length) ++ [e]) ++ B
      = (A ++ bucketAt bs (e.hash % bs.length)) ++ (e :: B) := by
        simp [List.append_assoc]
    _ ~ (A ++ bucketAt bs (e.hash % bs.length)) ++ (B ++ [e]) :=
        List.Perm.append_left _
          (by
            have hm : B ++ e :: [] ~ e :: (B ++ []) := List.perm_middle
            simpa using hm.symm)
    _ = (A ++ bucketAt bs (e.hash % bs.length) ++ B) ++ [e] := by
        simp [List.append_assoc]

theorem wellPlaced_place (bs : List (List Entry)) (e : Entry)
    (h : wellPlaced bs) : wellPlaced (place_item bs e) := by
  intro i hi x hx
  rw [length_place] at hi
  rw [length_place]
  by_cases hip : e.hash % bs.length = i
  · subst hip
    rw [place_item, bucketAt_set_self _ _ _ hi] at hx
    rcases List.mem_append.mp hx with hx | hx
    · exact h _ hi x hx
    · simp at hx; subst hx; rfl
  · rw [place_item, bucketAt_set_ne _ _ _ _ hip] at hx
    exact h i hi x hx

theorem sorted_place (bs : List (List Entry)) (e : Entry)
    (h : chainsSorted bs)
    (hst : ∀ x ∈ bucketAt bs (e.hash % bs.length), x.stamp < e.stamp) :
    chainsSorted (place_item bs e) := by
  intro i hi
  rw [length_place] at hi
  by_cases hip : e.hash % bs.length = i
  · subst hip
    rw [place_item, bucketAt_set_self _ _ _ hi]
    refine List.pairwise_append.mpr ⟨h _ hi, List.pairwise_singleton _ _, ?_⟩
    intro x hx y hy
    simp at hy; subst hy
    exact hst x hx
  · rw [place_item, bucketAt_set_ne _ _ _ _ hip]
    exact h i hi

/-! Facts about folding place_item over a list of entries (grow_table). -/

theorem length_foldl_place (es : List Entry) :
    ∀ bs : List (List Entry), (es.foldl place_item bs).length = bs.length := by
  induction es with
  | nil => intro bs; rfl
  | cons e es ih => intro bs; rw [List.foldl_cons, ih, length_place]

theorem flatten_foldl_place_perm (es : List Entry) :
    ∀ bs : List (List Entry), 0 < bs.length →
      (es.foldl place_item bs).flatten ~ bs.flatten ++ es := by
  induction es with
  | nil => intro bs _; simp
  | cons e es ih =>
    intro bs hbs
    rw [List.foldl_cons]
    have h1 := ih (place_item bs e) (by rw [length_place]; exact hbs)
    refine h1.trans ?_
    have h2 := (flatten_place_perm bs e hbs).append_right es
    refine h2.trans (List.Perm.of_eq ?_)
    simp [List.append_assoc]

theorem wellPlaced_foldl_place (es : List Entry) :
    ∀ bs : List (List Entry), wellPlaced bs →
      wellPlaced (es.foldl place_item bs) := by
  induction es with
  | nil => intro bs h; exact h
  | cons e es ih =>
    intro bs h
    rw [List.foldl_cons]
    exact ih _ (wellPlaced_place bs e h)

/-! Characterization of hash_exists on well-formed tables. -/

theorem hash_absent_all (t : Table) (h : Nat)
    (_hcap : 0 < t.capacity) (hpl : wellPlaced t.buckets)
    (habs : hash_exists t h = none) :
    ∀ x ∈ allEntries t, x.hash ≠ h := by
  intro x hx hxh
  obtain ⟨i, hi, hxi⟩ := exists_bucket_of_mem_flatten t.buckets x hx
  have hplx := hpl i hi x hxi
  have hidx : h % t.capacity = i := by
    rw [← hxh]
    exact hplx
  have hx2 : x ∈ bucketAt t.buckets (h % t.capacity) := by
    rw [hidx]; exact hxi
  have := List.find?_eq_none.mp habs x hx2
  simp [hxh] at this

theorem hash_exists_some_iff (t : Table) (hWF : WF t) (h : Nat) (e : Entry) :
    hash_exists t h = some e ↔ e ∈ allEntries t ∧ e.hash = h := by
  obtain ⟨hcap, hpl, hdis, _hsz, _hsort, _hst⟩ := hWF
  constructor
  · intro hfind
    have hmem := List.mem_of_find?_eq_some hfind
    have hpred := List.find?_some hfind
    have hpos : h % t.capacity < t.capacity := Nat.mod_lt _ hcap
    refine ⟨mem_flatten_of_mem_bucketAt _ _ _ hpos hmem, ?_⟩
    simpa using hpred
  · rintro ⟨hmem, rfl⟩
    obtain ⟨i, hi, hei⟩ := exists_bucket_of_mem_flatten t.buckets e hmem
    have hie : i = e.hash % t.capacity := (hpl i hi e hei).symm
    subst hie
    cases hfind : hash_exists t e.hash with
    | none =>
      have := List.find?_eq_none.mp hfind e hei
      simp at this
    | some r =>
      have hrpred := List.find?_some hfind
      have hrmem := List.mem_of_find?_eq_some hfind
      have hrh : r.hash = e.hash := by simpa using hrpred
      have hrall : r ∈ allEntries t :=
        mem_flatten_of_mem_bucketAt _ _ _ (Nat.mod_lt _ hcap) hrmem
      by_cases hre : r = e
      · rw [hre]
      · have hsym : Symmetric (fun a b : Entry => a.hash ≠ b.hash) := by
          intro a b hab; exact fun hba => hab hba.symm
        have := hdis.forall hsym hrall hmem hre
        exact absurd hrh this

/-! grow_table: capacity doubling, entry preservation, invariants. -/

theorem grow_capacity (t : Table) :
    (grow_table t).capacity = t.capacity * HT_GROW_FACT := by
  simp [grow_table, Table.capacity, length_foldl_place]

theorem grow_fields (t : Table) :
    (grow_table t).pfnHash = t.pfnHash ∧ (grow_table t).size = t.size ∧
      (grow_table t).nextStamp = t.nextStamp := by
  refine ⟨rfl, rfl, rfl⟩

theorem grow_entries_perm (t : Table) (hcap : 0 < t.capacity) :
    List.Perm (allEntries (grow_table t)) (allEntries t) := by
  have h2 : 0 < (List.replicate (t.capacity * HT_GROW_FACT)
      ([] : List Entry)).length := by
    simp [HT_GROW_FACT]; omega
  have := flatten_foldl_place_perm t.buckets.flatten _ h2
  simpa [grow_table, allEntries, flatten_replicate_nil] using this

theorem grow_wellPlaced (t : Table) : wellPlaced (grow_table t).buckets := by
  have hinit : wellPlaced
      (List.replicate (t.capacity * HT_GROW_FACT) ([] : List Entry)) := by
    intro i hi x hx
    rw [bucketAt_replicate_nil] at hx
    simp at hx
  exact wellPlaced_foldl_place _ _ hinit

/-- Core step of the stamp-order argument for grow_table: folding
place_item over a list of entries keeps every chain sorted, provided
entries headed for the same bucket arrive in stamp order and dominate
the stamps already in that bucket. -/
theorem sorted_foldl_place (es : List Entry) :
    ∀ bs : List (List Entry), 0 < bs.length →
      chainsSorted bs →
      (∀ i, i < bs.length → ∀ x ∈ bucketAt bs i, ∀ y ∈ es,
        y.hash % bs.length = i → x.stamp < y.stamp) →
      es.Pairwise (fun a b =>
        a.hash % bs.length = b.hash % bs.length → a.stamp < b.stamp) →
      chainsSorted (es.foldl place_item bs) := by
  induction es with
  | nil => intro bs _ hs _ _; exact hs
  | cons e es ih =>
    intro bs hbs hs hcross hpw
    rw [List.foldl_cons]
    have hlen : (place_item bs e).length = bs.length := length_place bs e
    have hpos : e.hash % bs.length < bs.length := Nat.mod_lt _ hbs
    refine ih (place_item bs e) (by rw [hlen]; exact hbs) ?_ ?_ ?_
    · exact sorted_place bs e hs
        (fun x hx => hcross _ hpos x hx e (by simp) rfl)
    · intro i hi x hx y hy hyi
      rw [hlen] at hi hyi
      by_cases hip : e.hash % bs.length = i
      · subst hip
        rw [place_item, bucketAt_set_self _ _ _ hpos] at hx
        rcases List.mem_append.mp hx with hx | hx
        · exact hcross _ hpos x hx y (by simp [hy]) hyi
        · simp at hx; subst hx
          have := (List.pairwise_cons.mp hpw).1 y hy
          exact this hyi.symm
      · rw [place_item, bucketAt_set_ne _ _ _ _ hip] at hx
        exact hcross i hi x hx y (by simp [hy]) hyi
    · have := (List.pairwise_cons.mp hpw).2
      refine this.imp ?_
      intro a b hab
      rw [hlen]
      exact hab

theorem grow_chainsSorted (t : Table) (hWF : WF t) :
    chainsSorted (grow_table t).buckets := by
  obtain ⟨hcap, hpl, _hdis, _hsz, hsort, _hst⟩ := hWF
  have h2 : 0 < (List.replicate (t.capacity * HT_GROW_FACT)
      ([] : List Entry)).length := by
    simp [HT_GROW_FACT]; omega
  have hlen2 : (List.replicate (t.capacity * HT_GROW_FACT)
      ([] : List Entry)).length = t.capacity * 2 := by
    simp [HT_GROW_FACT]
  refine sorted_foldl_place _ _ h2 ?_ ?_ ?_
  · intro i hi
    rw [bucketAt_replicate_nil]
    exact List.Pairwise.nil
  · intro i hi x hx
    rw [bucketAt_replicate_nil] at hx
    simp at hx
  · rw [List.pairwise_flatten]
    constructor
    · intro l hl
      obtain ⟨i, hi, rfl⟩ := List.mem_iff_getElem.mp hl
      have := hsort i hi
      rw [bucketAt_of_lt _ _ hi] at this
      refine List.Pairwise.imp ?_ this
      intro a b hab
      exact fun _ => hab
    · rw [List.pairwise_iff_getElem]
      intro i j hi hj hij x hx y hy hxy
      have hxi : x ∈ bucketAt t.buckets i := by
        rw [bucketAt_of_lt _ _ hi]; exact hx
      have hyj : y ∈ bucketAt t.buckets j := by
        rw [bucketAt_of_lt _ _ hj]; exact hy
      have h1 : x.hash % t.capacity = i := hpl i hi x hxi
      have h2 : y.hash % t.capacity = j := hpl j hj y hyj
      rw [hlen2] at hxy
      have hdvd : t.capacity ∣ t.capacity * 2 := dvd_mul_right t.capacity 2
      have : x.hash % t.capacity = y.hash % t.capacity := by
        have hx2 := Nat.mod_mod_of_dvd x.hash hdvd
        have hy2 := Nat.mod_mod_of_dvd y.hash hdvd
        rw [← hx2, ← hy2, hxy]
      rw [h1, h2] at this
      omega

theorem grow_WF (t : Table) (hWF : WF t) : WF (grow_table t) := by
  have hcap0 := hWF.1
  have hperm := grow_entries_perm t hcap0
  refine ⟨?_, grow_wellPlaced t, ?_, ?_, grow_chainsSorted t hWF, ?_⟩
  · rw [grow_capacity]
    simp [HT_GROW_FACT]
    omega
  · have hsym : ∀ {a b : Entry}, a.hash ≠ b.hash → b.hash ≠ a.hash :=
      fun hab => fun hba => hab hba.symm
    exact (hperm.pairwise_iff hsym).mpr hWF.2.2.1
  · rw [(grow_fields t).2.1, hperm.length_eq]
    exact hWF.2.2.2.1
  · intro e he
    rw [(grow_fields t).2.2]
    exact hWF.2.2.2.2.2 e (hperm.mem_iff.mp he)

/-! ht_insert: duplicate rejection and successful insertion. -/

/-- The table after the optional growth step inside ht_insert. -/
def insert_stage (t : Table) : Table :=
  if growNeeded t.size t.capacity then grow_table t else t

/-- The committed table at the end of a successful ht_insert. -/
def insert_commit (t1 : Table) (e : Entry) : Table :=
  { buckets := place_item t1.buckets e
    size := (t1.size + 1) % U32
    pfnHash := t1.pfnHash
    nextStamp := t1.nextStamp + 1 }

theorem ht_insert_eq (t : Table) (k : Key) (v ds : Nat) (f : FreeFn) :
    ht_insert t k v ds f =
      if (hash_exists t (t.pfnHash k)).isSome then (HT_DUPLICATE, t)
      else
        (HT_OK, insert_commit (insert_stage t)
          ⟨k, v, ds, f, t.pfnHash k, (insert_stage t).nextStamp⟩) := rfl

theorem ht_insert_dup (t : Table) (k : Key) (v ds : Nat) (f : FreeFn)
    (hdup : (hash_exists t (t.pfnHash k)).isSome = true) :
    ht_insert t k v ds f = (HT_DUPLICATE, t) := by
  rw [ht_insert_eq, if_pos hdup]

theorem insert_stage_spec (t : Table) (hWF : WF t) :
    WF (insert_stage t) ∧ (insert_stage t).pfnHash = t.pfnHash ∧
      (insert_stage t).nextStamp = t.nextStamp ∧
      (insert_stage t).size = t.size ∧
      List.Perm (allEntries (insert_stage t)) (allEntries t) ∧
      (insert_stage t).capacity =
        (if growNeeded t.size t.capacity then t.capacity * HT_GROW_FACT
          else t.capacity) := by
  by_cases hg : growNeeded t.size t.capacity
  · rw [insert_stage, if_pos hg, if_pos hg]
    exact ⟨grow_WF t hWF, rfl, rfl, rfl, grow_entries_perm t hWF.1,
      grow_capacity t⟩
  · rw [insert_stage, if_neg hg, if_neg hg]
    exact ⟨hWF, rfl, rfl, rfl, List.Perm.refl _, rfl⟩

theorem insert_commit_spec (t1 : Table) (e : Entry) (hWF1 : WF t1)
    (hnew : ∀ x ∈ allEntries t1, x.hash ≠ e.hash)
    (hstamp : e.stamp = t1.nextStamp) :
    WF (insert_commit t1 e) ∧
      List.Perm (allEntries (insert_commit t1 e)) (e :: allEntries t1) ∧
      (insert_commit t1 e).pfnHash = t1.pfnHash ∧
      (insert_commit t1 e).nextStamp = t1.nextStamp + 1 ∧
      (insert_commit t1 e).capacity = t1.capacity := by
  obtain ⟨hcap, hpl, hdis, hsz, hsort, hst⟩ := hWF1
  have hlen : (insert_commit t1 e).buckets.length = t1.buckets.length :=
    length_place t1.buckets e
  have hflat : List.Perm (allEntries (insert_commit t1 e))
      (allEntries t1 ++ [e]) := flatten_place_perm t1.buckets e hcap
  have hperm : List.Perm (allEntries (insert_commit t1 e))
      (e :: allEntries t1) := by
    refine hflat.trans ?_
    have hm : allEntries t1 ++ e :: [] ~ e :: (allEntries t1 ++ []) :=
      List.perm_middle
    rw [List.append_nil] at hm
    exact hm
  have hsym : ∀ {a b : Entry}, a.hash ≠ b.hash → b.hash ≠ a.hash :=
    fun hab => fun hba => hab hba.symm
  refine ⟨⟨?_, ?_, ?_, ?_, ?_, ?_⟩, hperm, rfl, rfl, hlen⟩
  · show 0 < (insert_commit t1 e).buckets.length
    rw [hlen]; exact hcap
  · exact wellPlaced_place t1.buckets e hpl
  · refine (hperm.pairwise_iff hsym).mpr ?_
    refine List.pairwise_cons.mpr ⟨?_, hdis⟩
    intro x hx
    exact fun hex => hnew x hx hex.symm
  · show (t1.size + 1) % U32 = (allEntries (insert_commit t1 e)).length % U32
    rw [hperm.length_eq]
    simp only [List.length_cons]
    rw [hsz, Nat.mod_add_mod]
  · refine sorted_place t1.buckets e hsort ?_
    intro x hx
    have hpos : e.hash % t1.buckets.length < t1.buckets.length :=
      Nat.mod_lt _ hcap
    have := hst x (mem_flatten_of_mem_bucketAt _ _ _ hpos hx)
    omega
  · intro x hx
    show x.stamp < t1.nextStamp + 1
    rcases (hperm.mem_iff.mp hx : x ∈ e :: allEntries t1) with hx2
    rcases List.mem_cons.mp hx2 with rfl | hx3
    · omega
    · have := hst x hx3
      omega

theorem ht_insert_new (t : Table) (k : Key) (v ds : Nat) (f : FreeFn)
    (hWF : WF t) (habs : hash_exists t (t.pfnHash k) = none) :
    ∃ t2 : Table,
      ht_insert t k v ds f = (HT_OK, t2) ∧ WF t2 ∧
      t2.pfnHash = t.pfnHash ∧ t2.nextStamp = t.nextStamp + 1 ∧
      List.Perm (allEntries t2)
        (Entry.mk k v ds f (t.pfnHash k) t.nextStamp :: allEntries t) ∧
      t2.capacity =
        (if growNeeded t.size t.capacity then t.capacity * HT_GROW_FACT
          else t.capacity) := by
  obtain ⟨hWF1, hph, hns, _hsz, hperm1, hcap1⟩ := insert_stage_spec t hWF
  have hiso : (hash_exists t (t.pfnHash k)).isSome = false := by
    rw [habs]; rfl
  have hnew : ∀ x ∈ allEntries (insert_stage t), x.hash ≠ t.pfnHash k := by
    intro x hx
    exact hash_absent_all t (t.pfnHash k) hWF.1 hWF.2.1 habs x
      (hperm1.mem_iff.mp hx)
  obtain ⟨hWF2, hperm2, hph2, hns2, hcap2⟩ :=
    insert_commit_spec (insert_stage t)
      ⟨k, v, ds, f, t.pfnHash k, (insert_stage t).nextStamp⟩ hWF1 hnew rfl
  refine ⟨_, by rw [ht_insert_eq, if_neg (by rw [hiso]; simp)], hWF2,
    ?_, ?_, ?_, ?_⟩
  · rw [hph2, hph]
  · rw [hns2, hns]
  · have hE : (Entry.mk k v ds f (t.pfnHash k) t.nextStamp)
        = Entry.mk k v ds f (t.pfnHash k) (insert_stage t).nextStamp := by
      rw [hns]
    rw [hE]
    exact hperm2.trans (List.Perm.cons _ hperm1)
  · rw [hcap2, hcap1]

/-! ht_remove: crash on an empty bucket, not-found, successful removal. -/

theorem removeFirst_eq_none (h : Nat) (l : List Entry)
    (hno : ∀ x ∈ l, x.hash ≠ h) : removeFirstByHash h l = none := by
  induction l with
  | nil => rfl
  | cons e es ih =>
    have he : (e.hash == h) = false := by
      simpa using hno e (by simp)
    simp only [removeFirstByHash, he, Bool.false_eq_true, if_false]
    rw [ih (fun x hx => hno x (by simp [hx]))]
    rfl

theorem removeFirst_of_find? (h : Nat) (l : List Entry) :
    ∀ r, l.find? (fun x => x.hash == h) = some r →
      ∃ l2, removeFirstByHash h l = some l2 ∧
        List.Perm l (r :: l2) ∧ l2 <+ l := by
  induction l with
  | nil => intro r hr; simp at hr
  | cons e es ih =>
    intro r hr
    by_cases hh : (e.hash == h) = true
    · rw [List.find?_cons_of_pos (p := fun x => x.hash == h) es hh] at hr
      have her : e = r := by simpa using hr
      subst her
      refine ⟨es, ?_, List.Perm.refl _, List.sublist_cons_self e es⟩
      simp [removeFirstByHash, hh]
    · rw [List.find?_cons_of_neg (p := fun x => x.hash == h) es hh] at hr
      obtain ⟨l2, h1, h2, h3⟩ := ih r hr
      refine ⟨e :: l2, ?_, ?_, List.Sublist.cons₂ e h3⟩
      · simp only [removeFirstByHash, hh, Bool.false_eq_true, if_false, h1]
        rfl
      · exact (h2.cons e).trans (List.Perm.swap r e l2)

theorem ht_remove_crash (t : Table) (k : Key)
    (hemp : bucketAt t.buckets (t.pfnHash k % t.capacity) = []) :
    ht_remove t k = none := by
  simp [ht_remove, hemp]

theorem ht_remove_notfound (t : Table) (k : Key)
    (habs : hash_exists t (t.pfnHash k) = none)
    (hne : bucketAt t.buckets (t.pfnHash k % t.capacity) ≠ []) :
    ht_remove t k = some (HT_NOT_FOUND, t) := by
  cases hch : bucketAt t.buckets (t.pfnHash k % t.capacity) with
  | nil => exact absurd hch hne
  | cons e rest =>
    have hall : ∀ x ∈ e :: rest, ¬((x.hash == t.pfnHash k) = true) := by
      rw [← hch]
      exact List.find?_eq_none.mp habs
    have he : (e.hash == t.pfnHash k) = false := by
      simpa using hall e (by simp)
    have hrest : removeFirstByHash (t.pfnHash k) rest = none :=
      removeFirst_eq_none _ _
        (fun x hx => by simpa using hall x (by simp [hx]))
    simp [ht_remove, hch, he, hrest]

/-- Removing one entry from one chain: permutation and invariants of the
updated bucket array. -/
theorem remove_commit_spec (t : Table) (pos : Nat) (r : Entry)
    (chain2 : List Entry) (hWF : WF t) (hpos : pos < t.buckets.length)
    (hperm : List.Perm (bucketAt t.buckets pos) (r :: chain2))
    (hsub : chain2 <+ bucketAt t.buckets pos) :
    List.Perm t.buckets.flatten (r :: (t.buckets.set pos chain2).flatten) ∧
      wellPlaced (t.buckets.set pos chain2) ∧
      chainsSorted (t.buckets.set pos chain2) ∧
      ((t.buckets.set pos chain2).flatten).Pairwise
        (fun a b => a.hash ≠ b.hash) ∧
      (∀ e ∈ (t.buckets.set pos chain2).flatten, e.stamp < t.nextStamp) := by
  obtain ⟨hcap, hpl, hdis, _hsz, hsort, hst⟩ := hWF
  obtain ⟨A, B, hAB1, hAB2⟩ := flatten_set t.buckets pos hpos
  have hflat : List.Perm t.buckets.flatten
      (r :: (t.buckets.set pos chain2).flatten) := by
    rw [hAB1, hAB2 chain2]
    calc A ++ bucketAt t.buckets pos ++ B
        ~ A ++ (r :: chain2) ++ B :=
          ((hperm.append_left A).append_right B)
      _ = A ++ r :: (chain2 ++ B) := by simp [List.append_assoc]
      _ ~ r :: (A ++ (chain2 ++ B)) := List.perm_middle
      _ = r :: (A ++ chain2 ++ B) := by simp [List.append_assoc]
  have hsym : ∀ {a b : Entry}, a.hash ≠ b.hash → b.hash ≠ a.hash :=
    fun hab => fun hba => hab hba.symm
  refine ⟨hflat, ?_, ?_, ?_, ?_⟩
  · intro i hi x hx
    rw [List.length_set] at hi ⊢
    by_cases hip : pos = i
    · subst hip
      rw [bucketAt_set_self _ _ _ hpos] at hx
      exact hpl pos hpos x (hsub.subset hx)
    · rw [bucketAt_set_ne _ _ _ _ hip] at hx
      exact hpl i hi x hx
  · intro i hi
    rw [List.length_set] at hi
    by_cases hip : pos = i
    · subst hip
      rw [bucketAt_set_self _ _ _ hpos]
      exact (hsort pos hpos).sublist hsub
    · rw [bucketAt_set_ne _ _ _ _ hip]
      exact hsort i hi
  · have := (hflat.pairwise_iff hsym).mp hdis
    exact (List.pairwise_cons.mp this).2
  · intro x hx
    exact hst x (hflat.mem_iff.mpr (List.mem_cons_of_mem r hx))

theorem ht_remove_found (t : Table) (k : Key) (r : Entry)
    (hWF : WF t) (hfind : hash_exists t (t.pfnHash k) = some r) :
    ∃ t2 : Table, ht_remove t k = some (HT_OK, t2) ∧ WF t2 ∧
      t2.pfnHash = t.pfnHash ∧ t2.nextStamp = t.nextStamp ∧
      t2.capacity = t.capacity ∧
      t2.size = (t.size + (U32 - 1)) % U32 ∧
      r.hash = t.pfnHash k ∧
      List.Perm (allEntries t) (r :: allEntries t2) := by
  have hcap := hWF.1
  have hpos : t.pfnHash k % t.capacity < t.buckets.length :=
    Nat.mod_lt _ hcap
  have hrh : r.hash = t.pfnHash k := by
    simpa using List.find?_some hfind
  have hmain : ∃ chain2,
      ht_remove t k = some (HT_OK,
        { t with buckets := t.buckets.set (t.pfnHash k % t.capacity) chain2
                 size := (t.size + (U32 - 1)) % U32 }) ∧
      List.Perm (bucketAt t.buckets (t.pfnHash k % t.capacity)) (r :: chain2) ∧
      chain2 <+ bucketAt t.buckets (t.pfnHash k % t.capacity) := by
    cases hch : bucketAt t.buckets (t.pfnHash k % t.capacity) with
    | nil =>
      rw [hash_exists, hch] at hfind
      simp at hfind
    | cons e rest =>
      by_cases hh : (e.hash == t.pfnHash k) = true
      · have her : e = r := by
          have : hash_exists t (t.pfnHash k) = some e := by
            rw [hash_exists, hch]
            exact List.find?_cons_of_pos
              (p := fun x => x.hash == t.pfnHash k) rest hh
          rw [this] at hfind
          simpa using hfind
        subst her
        refine ⟨rest, ?_, List.Perm.refl _, List.sublist_cons_self e rest⟩
        simp [ht_remove, hch, hh]
      · have hfr : rest.find? (fun x => x.hash == t.pfnHash k) = some r := by
          rw [hash_exists, hch,
            List.find?_cons_of_neg (p := fun x => x.hash == t.pfnHash k)
              rest hh] at hfind
          exact hfind
        obtain ⟨rest2, h1, h2, h3⟩ := removeFirst_of_find? _ _ r hfr
        refine ⟨e :: rest2, ?_, ?_, List.Sublist.cons₂ e h3⟩
        · simp [ht_remove, hch, hh, h1]
        · exact (h2.cons e).trans (List.Perm.swap r e rest2)
  obtain ⟨chain2, hrem, hperm, hsub⟩ := hmain
  obtain ⟨hflat, hpl2, hsort2, hdis2, hst2⟩ :=
    remove_commit_spec t (t.pfnHash k % t.capacity) r chain2 hWF hpos hperm hsub
  have hrmem : r ∈ allEntries t := hflat.mem_iff.mpr (by simp)
  have hlen1 : 1 ≤ (allEntries t).length := by
    cases hall : allEntries t with
    | nil => rw [hall] at hrmem; simp at hrmem
    | cons a l => simp [hall]
  refine ⟨_, hrem, ⟨?_, hpl2, hdis2, ?_, hsort2, hst2⟩, rfl, rfl, ?_, rfl,
    hrh, hflat⟩
  · show 0 < (t.buckets.set (t.pfnHash k % t.capacity) chain2).length
    rw [List.length_set]
    exact hcap
  · show (t.size + (U32 - 1)) % U32 = _ % U32
    have hlen2 : (allEntries t).length =
        ((t.buckets.set (t.pfnHash k % t.capacity) chain2).flatten).length
          + 1 := by
      rw [allEntries, hflat.length_eq, List.length_cons]
    rw [hWF.2.2.2.1, Nat.mod_add_mod, hlen2]
    have hU : 0 < U32 := by simp [U32]
    have : (t.buckets.set (t.pfnHash k % t.capacity) chain2).flatten.length
        + 1 + (U32 - 1)
        = (t.buckets.set (t.pfnHash k % t.capacity) chain2).flatten.length
          + U32 := by
      omega
    rw [this, Nat.add_mod_right]
    rfl
  · show (t.buckets.set (t.pfnHash k % t.capacity) chain2).length = _
    rw [List.length_set]
    rfl

/-! ht_set_hash_func and preservation of WF along call sequences. -/

theorem ht_set_hash_func_keeps (t : Table) (f : Option HashFn) (hWF : WF t) :
    WF (ht_set_hash_func t f).2 ∧
      allEntries (ht_set_hash_func t f).2 = allEntries t ∧
      (ht_set_hash_func t f).2.nextStamp = t.nextStamp := by
  obtain ⟨h1, h2, h3, h4, h5, h6⟩ := hWF
  cases f with
  | none => exact ⟨⟨h1, h2, h3, h4, h5, h6⟩, rfl, rfl⟩
  | some fn =>
    by_cases hsz : t.size > 0
    · rw [ht_set_hash_func, if_pos hsz]
      exact ⟨⟨h1, h2, h3, h4, h5, h6⟩, rfl, rfl⟩
    · rw [ht_set_hash_func, if_neg hsz]
      exact ⟨⟨h1, h2, h3, h4, h5, h6⟩, rfl, rfl⟩

theorem isSome_false_eq_none (o : Option Entry)
    (h : ¬o.isSome = true) : o = none := by
  cases o with
  | none => rfl
  | some e => simp at h

theorem step_WF (t : Table) (op : Op) (t2 : Table) (hWF : WF t)
    (hstep : step t op = some t2) : WF t2 := by
  cases op with
  | insert k v ds f =>
    have ht2 : t2 = (ht_insert t k v ds f).2 := by
      rw [step] at hstep
      exact (Option.some.inj hstep).symm
    subst ht2
    by_cases hdup : (hash_exists t (t.pfnHash k)).isSome = true
    · rw [ht_insert_dup t k v ds f hdup]
      exact hWF
    · obtain ⟨t3, heq, hWF3, _⟩ :=
        ht_insert_new t k v ds f hWF (isSome_false_eq_none _ hdup)
      rw [heq]
      exact hWF3
  | remove k =>
    rw [step] at hstep
    cases hr : ht_remove t k with
    | none => rw [hr] at hstep; simp at hstep
    | some p =>
      rw [hr] at hstep
      have ht2 : t2 = p.2 := by simpa using hstep.symm
      subst ht2
      cases hx : hash_exists t (t.pfnHash k) with
      | some r =>
        obtain ⟨t4, hrem, hWF4, _⟩ := ht_remove_found t k r hWF hx
        rw [hrem] at hr
        rw [← Option.some.inj hr]
        exact hWF4
      | none =>
        cases hch : bucketAt t.buckets (t.pfnHash k % t.capacity) with
        | nil => rw [ht_remove_crash t k hch] at hr; exact absurd hr (by simp)
        | cons e rest =>
          rw [ht_remove_notfound t k hx (by rw [hch]; simp)] at hr
          rw [← Option.some.inj hr]
          exact hWF
  | setHashFunc f =>
    have ht2 : t2 = (ht_set_hash_func t f).2 := by
      rw [step] at hstep
      exact (Option.some.inj hstep).symm
    subst ht2
    exact (ht_set_hash_func_keeps t f hWF).1

theorem run_WF : ∀ (ops : List Op) (t t2 : Table),
    WF t → run t ops = some t2 → WF t2 := by
  intro ops
  induction ops with
  | nil =>
    intro t t2 h hr
    rw [run] at hr
    rw [← Option.some.inj hr]
    exact h
  | cons op ops ih =>
    intro t t2 h hr
    rw [run] at hr
    cases hs : step t op with
    | none => rw [hs] at hr; simp at hr
    | some t3 =>
      rw [hs] at hr
      exact ih t3 t2 (step_WF t op t3 h hs) hr

theorem ht_init_WF : WF ht_init := by
  have hb : ht_init.buckets = List.replicate HT_DEFAULT_CAP [] := rfl
  have hflat : allEntries ht_init = [] := by
    rw [allEntries, hb, flatten_replicate_nil]
  refine ⟨?_, ?_, ?_, ?_, ?_, ?_⟩
  · show 0 < ht_init.buckets.length
    rw [hb]
    simp [HT_DEFAULT_CAP]
  · intro i hi x hx
    rw [hb, bucketAt_replicate_nil] at hx
    simp at hx
  · rw [hflat]
    exact List.Pairwise.nil
  · rw [hflat]
    rfl
  · intro i hi
    rw [hb, bucketAt_replicate_nil]
    exact List.Pairwise.nil
  · intro e he
    rw [hflat] at he
    simp at he

theorem reach_WF (t : Table) (h : Reach t) : WF t := by
  obtain ⟨ops, hr⟩ := h
  exact run_WF ops ht_init t ht_init_WF hr

/-! Survival of one live entry along a call sequence that never removes
its hash.  The length bound reflects that a uint32_t size counter (and a
real address space) cannot hold 2 ^ 32 entries; under it the size field
is exactly the entry count, so ht_set_hash_func keeps failing with
HT_MISUSE while the entry is live and the hash function never changes. -/

theorem step_keeps (t t2 : Table) (op : Op) (e0 : Entry)
    (hWF : WF t) (hmem : e0 ∈ allEntries t)
    (hbound : (allEntries t).length < U32)
    (hstep : step t op = some t2)
    (hnorem : ∀ k2, op = Op.remove k2 → t.pfnHash k2 ≠ e0.hash) :
    WF t2 ∧ e0 ∈ allEntries t2 ∧ t2.pfnHash = t.pfnHash ∧
      (allEntries t2).length ≤ (allEntries t).length + 1 := by
  cases op with
  | insert k v ds f =>
    have ht2 : t2 = (ht_insert t k v ds f).2 := by
      rw [step] at hstep
      exact (Option.some.inj hstep).symm
    subst ht2
    by_cases hdup : (hash_exists t (t.pfnHash k)).isSome = true
    · rw [ht_insert_dup t k v ds f hdup]
      exact ⟨hWF, hmem, rfl, Nat.le_succ _⟩
    · obtain ⟨t3, heq, hWF3, hph3, _, hperm3, _⟩ :=
        ht_insert_new t k v ds f hWF (isSome_false_eq_none _ hdup)
      rw [heq]
      refine ⟨hWF3, ?_, hph3, ?_⟩
      · exact hperm3.mem_iff.mpr (List.mem_cons_of_mem _ hmem)
      · rw [hperm3.length_eq]
        simp
  | remove k =>
    rw [step] at hstep
    cases hr : ht_remove t k with
    | none => rw [hr] at hstep; simp at hstep
    | some p =>
      rw [hr] at hstep
      have ht2 : t2 = p.2 := by simpa using hstep.symm
      subst ht2
      cases hx : hash_exists t (t.pfnHash k) with
      | some r =>
        obtain ⟨t4, hrem, hWF4, hph4, _, _, _, hrh, hperm4⟩ :=
          ht_remove_found t k r hWF hx
        rw [hrem] at hr
        rw [← Option.some.inj hr]
        have hne : e0 ≠ r := by
          intro he
          have := hnorem k rfl
          rw [← hrh, ← he] at this
          exact this rfl
        refine ⟨hWF4, ?_, hph4, ?_⟩
        · have := hperm4.mem_iff.mp hmem
          rcases List.mem_cons.mp this with h1 | h1
          · exact absurd h1 hne
          · exact h1
        · have hl := hperm4.length_eq
          rw [List.length_cons] at hl
          show (allEntries t4).length ≤ (allEntries t).length + 1
          omega
      | none =>
        cases hch : bucketAt t.buckets (t.pfnHash k % t.capacity) with
        | nil => rw [ht_remove_crash t k hch] at hr; exact absurd hr (by simp)
        | cons e rest =>
          rw [ht_remove_notfound t k hx (by rw [hch]; simp)] at hr
          rw [← Option.some.inj hr]
          exact ⟨hWF, hmem, rfl, Nat.le_succ _⟩
  | setHashFunc f =>
    have ht2 : t2 = (ht_set_hash_func t f).2 := by
      rw [step] at hstep
      exact (Option.some.inj hstep).symm
    subst ht2
    cases f with
    | none => exact ⟨hWF, hmem, rfl, Nat.le_succ _⟩
    | some fn =>
      have hlen1 : 0 < (allEntries t).length :=
        List.length_pos.mpr (List.ne_nil_of_mem hmem)
      have hsz : t.size > 0 := by
        rw [hWF.2.2.2.1, Nat.mod_eq_of_lt hbound]
        exact hlen1
      rw [ht_set_hash_func, if_pos hsz]
      exact ⟨hWF, hmem, rfl, Nat.le_succ _⟩

theorem run_keeps (e0 : Entry) :
    ∀ (ops : List Op) (t t2 : Table),
      WF t → e0 ∈ allEntries t →
      (allEntries t).length + ops.length < U32 →
      (∀ k2, Op.remove k2 ∈ ops → t.pfnHash k2 ≠ e0.hash) →
      run t ops = some t2 →
      WF t2 ∧ e0 ∈ allEntries t2 ∧ t2.pfnHash = t.pfnHash := by
  intro ops
  induction ops with
  | nil =>
    intro t t2 hWF hmem _ _ hr
    rw [run] at hr
    rw [← Option.some.inj hr]
    exact ⟨hWF, hmem, rfl⟩
  | cons op ops ih =>
    intro t t2 hWF hmem hbound hnorem hr
    rw [run] at hr
    cases hs : step t op with
    | none => rw [hs] at hr; simp at hr
    | some t3 =>
      rw [hs] at hr
      have hlen : (allEntries t).length < U32 := by
        simp at hbound
        omega
      obtain ⟨hWF3, hmem3, hph3, hlen3⟩ :=
        step_keeps t t3 op e0 hWF hmem hlen hs
          (fun k2 hop => hnorem k2 (by rw [hop]; simp))
      obtain ⟨hWF2, hmem2, hph2⟩ :=
        ih t3 t2 hWF3 hmem3
          (by simp at hbound; omega)
          (fun k2 hk2 => by
            rw [hph3]
            exact hnorem k2 (List.mem_cons_of_mem _ hk2))
          hr
      exact ⟨hWF2, hmem2, by rw [hph2, hph3]⟩

/-! Concrete tables used by witnesses and counterexamples. -/

/-- A constant hash function (legal for ht_set_hash_func; it is non-NULL
and has the right signature). -/
def constHash : HashFn := fun _ => 0

/-- The table after inserting key 0x01 with a static value 42 of size 4
into a fresh table. -/
def tOne : Table := (ht_insert ht_init [1] 42 4 FreeFn.static).2

/-!
C4.  The claim: for every initialized table and every key whose hash
maps to a bucket whose chain is empty, ht_remove returns HT_NOT_FOUND
and leaves the table unchanged.  The code (src/hash_table.c lines
487-507) assigns rc = HT_NOT_FOUND when pEntry == NULL, but the
following head test if(pEntry->hash == hash) is not guarded by an else,
so it dereferences the NULL bucket head: the assignment is dead and the
call is undefined behaviour.  The spec (and the comment in the code)
clearly intend not-found, so this is a code bug.
-/

/-- C4: evaluating ht_remove on a fresh table (all 31 buckets empty)
with key 0x00 reaches the undefined NULL dereference, modelled as none,
instead of returning HT_NOT_FOUND with the table unchanged. -/
theorem c4_remove_empty_bucket_crashes : ht_remove ht_init [0] = none := rfl

/-!
C3.  The claim: any allocation failure inside ht_insert yields
HT_ALLOC_ERR, releases every partial allocation, and leaves the table
unchanged.  In the code (src/hash_table.c lines 420-429) the check after
the transient value-copy malloc reads if(new_entry == NULL) instead of
if(new_entry->pData == NULL); new_entry is necessarily non-NULL there,
so a failed value-copy allocation is not caught and memcpy writes
through the NULL pData pointer.  The error-path comment (Free newly
allocated memory on error) shows the intent; this is a code bug.
-/

/-- C3: with the entry malloc and key malloc succeeding and the
transient value-copy malloc failing, ht_insert runs into the unchecked
NULL memcpy (modelled as crash) instead of returning HT_ALLOC_ERR with
all partial allocations released. -/
theorem c3_transient_alloc_unchecked :
    ht_insert_alloc ht_init [1] 42 4 FreeFn.transient [true, true, false]
      = InsOutcome.crash := rfl

/-!
C10.  ht_strk_has_key with a NULL key returns HT_ARG_NULL = 13 for any
table handle, while ht_has_key returns the boolean 0 for any NULL input,
so a caller testing the wrapper result for truth sees a null key as
present.
-/

/-- C10: for every table handle, the string-key wrapper maps a NULL key
to HT_ARG_NULL (13), a nonzero value, whereas ht_has_key maps a NULL key
to 0. -/
theorem c10_strk_null_key (pHt : Option Table) :
    ht_strk_has_key pHt none = HT_ARG_NULL ∧ HT_ARG_NULL = 13 ∧
      ht_strk_has_key pHt none ≠ 0 ∧ ht_has_key pHt none = 0 := by
  refine ⟨rfl, rfl, ?_, ?_⟩
  · show HT_ARG_NULL ≠ (0 : Int)
    decide
  · cases pHt <;> rfl

/-- C10 witness at the concrete handles none and some ht_init. -/
theorem c10_strk_null_key_witness :
    ht_strk_has_key (some ht_init) none = 13 ∧
      ht_strk_has_key (some ht_init) none ≠ 0 ∧
      ht_has_key (some ht_init) none = 0 ∧
      ht_strk_has_key none none = 13 ∧ ht_has_key none none = 0 :=
  ⟨(c10_strk_null_key (some ht_init)).1, (c10_strk_null_key (some ht_init)).2.2.1,
    (c10_strk_null_key (some ht_init)).2.2.2, (c10_strk_null_key none).1,
    (c10_strk_null_key none).2.2.2⟩

/-!
C9.  ht_has_key returns 0 for any NULL table handle or NULL key, and on
valid input returns 1 exactly when the hash of the key is found in the
chain of its bucket.  The function is a pure reader: it is modelled as a
function that returns only the flag and no table, mirroring that the C
code never writes to the table.
-/

/-- C9: ht_has_key folds NULL input into 0 and otherwise returns 1
exactly when hash_exists finds the hash of the key in the chain of its
bucket. -/
theorem c9_has_key (pHt : Option Table) (pKey : Option Key) :
    (pHt = none ∨ pKey = none → ht_has_key pHt pKey = 0) ∧
    (∀ (t : Table) (k : Key), pHt = some t → pKey = some k →
      (ht_has_key pHt pKey
          = (if (hash_exists t (t.pfnHash k)).isSome then 1 else 0) ∧
        (ht_has_key pHt pKey = 1 ↔
          (hash_exists t (t.pfnHash k)).isSome = true))) := by
  constructor
  · intro h
    rcases h with h | h <;> subst h
    · rfl
    · cases pHt <;> rfl
  · rintro t k rfl rfl
    refine ⟨rfl, ?_⟩
    by_cases h : (hash_exists t (t.pfnHash k)).isSome = true
    · simp [ht_has_key, h]
    · simp [ht_has_key, h]

/-- C9 witness at concrete inputs: NULL handle, NULL key, and a present
and an absent key on the table holding key 0x01. -/
theorem c9_has_key_witness :
    ht_has_key none (some [1]) = 0 ∧
      ht_has_key (some tOne) none = 0 ∧
      (ht_has_key (some tOne) (some [1])
        = (if (hash_exists tOne (tOne.pfnHash [1])).isSome then 1 else 0)) ∧
      (ht_has_key (some tOne) (some [2]) = 1 ↔
        (hash_exists tOne (tOne.pfnHash [2])).isSome = true) :=
  ⟨(c9_has_key none (some [1])).1 (Or.inl rfl),
    (c9_has_key (some tOne) none).1 (Or.inr rfl),
    ((c9_has_key (some tOne) (some [1])).2 tOne [1] rfl rfl).1,
    ((c9_has_key (some tOne) (some [2])).2 tOne [2] rfl rfl).2⟩

/-!
C8.  ht_set_hash_func on a non-empty table returns HT_MISUSE and changes
nothing; on an empty table with a non-NULL function it returns HT_OK and
installs the function, after which lookups and inserts hash with the new
function (they read the stored pfnHash field).
-/

/-- C8: ht_set_hash_func returns HT_MISUSE leaving the table (hash
function and all entries) unchanged when size is positive, and on an
empty table installs the new function, which subsequent ht_get_item and
ht_insert calls then use. -/
theorem c8_set_hash_func (t : Table) (f : HashFn) :
    ht_set_hash_func t (some f)
        = (if 0 < t.size then (HT_MISUSE, t)
            else (HT_OK, { t with pfnHash := f })) ∧
      ((ht_set_hash_func t (some f)).2.pfnHash
        = (if 0 < t.size then t.pfnHash else f)) ∧
      (t.size = 0 → ∀ k : Key,
        ht_get_item (ht_set_hash_func t (some f)).2 k
          = ht_get_item { t with pfnHash := f } k) ∧
      (t.size = 0 → ∀ (k : Key) (v ds : Nat) (ff : FreeFn),
        ht_insert (ht_set_hash_func t (some f)).2 k v ds ff
          = ht_insert { t with pfnHash := f } k v ds ff) := by
  by_cases h : 0 < t.size
  · have h1 : ht_set_hash_func t (some f) = (HT_MISUSE, t) := by
      rw [ht_set_hash_func, if_pos h]
    exact ⟨by rw [h1, if_pos h], by rw [h1, if_pos h],
      fun hz => absurd hz (by omega), fun hz => absurd hz (by omega)⟩
  · have h1 : ht_set_hash_func t (some f) = (HT_OK, { t with pfnHash := f }) := by
      rw [ht_set_hash_func, if_neg h]
    exact ⟨by rw [h1, if_neg h], by rw [h1, if_neg h],
      fun _ k => by rw [h1], fun _ k v ds ff => by rw [h1]⟩

/-- C8 witness: on the singleton table the call is HT_MISUSE and changes
nothing; on the fresh empty table it succeeds and installs constHash. -/
theorem c8_set_hash_func_witness :
    ht_set_hash_func tOne (some constHash) = (HT_MISUSE, tOne) ∧
      ht_set_hash_func ht_init (some constHash)
        = (HT_OK, { ht_init with pfnHash := constHash }) ∧
      ht_get_item (ht_set_hash_func ht_init (some constHash)).2 [7]
        = ht_get_item { ht_init with pfnHash := constHash } [7] := by
  refine ⟨?_, ?_, (c8_set_hash_func ht_init constHash).2.2.1 rfl [7]⟩
  · have h := (c8_set_hash_func tOne constHash).1
    have hs : 0 < tOne.size := by decide
    rw [if_pos hs] at h
    exact h
  · have h := (c8_set_hash_func ht_init constHash).1
    have hs : ¬0 < ht_init.size := by decide
    rw [if_neg hs] at h
    exact h

/-!
C6.  A second ht_insert with an already present key returns HT_DUPLICATE
before any mutation: the table is returned unchanged, so its size is
unchanged and ht_get_item still yields the originally stored value.  In
this code a key is present exactly when its hash is cached in the chain
of its bucket (lookups compare hashes only), and the cached hash of a
live entry was computed by the currently active hash function, since the
function cannot be replaced while entries exist.
-/

/-- C6: when an entry with the given key (cached under the hash that the
active function assigns to that key) is present, ht_insert returns
HT_DUPLICATE, the size is unchanged, and ht_get_item still returns the
originally stored value and size. -/
theorem c6_duplicate_insert (t : Table) (k : Key) (v ds : Nat) (f : FreeFn)
    (e : Entry) (hpresent : hash_exists t (t.pfnHash k) = some e)
    (_hkey : e.pKey = k) :
    ht_insert t k v ds f = (HT_DUPLICATE, t) ∧
      (ht_insert t k v ds f).2.size = t.size ∧
      ht_get_item (ht_insert t k v ds f).2 k
        = (HT_OK, some e.pData, e.data_size) := by
  have hdup : (hash_exists t (t.pfnHash k)).isSome = true := by
    rw [hpresent]; rfl
  have h1 := ht_insert_dup t k v ds f hdup
  refine ⟨h1, by rw [h1], ?_⟩
  rw [h1]
  show ht_get_item t k = _
  rw [ht_get_item, hpresent]

/-- C6 witness: re-inserting key 0x01 into the singleton table. -/
theorem c6_duplicate_insert_witness :
    ht_insert tOne [1] 9 9 FreeFn.transient = (HT_DUPLICATE, tOne) ∧
      (ht_insert tOne [1] 9 9 FreeFn.transient).2.size = tOne.size ∧
      ht_get_item (ht_insert tOne [1] 9 9 FreeFn.transient).2 [1]
        = (HT_OK, some 42, 4) :=
  c6_duplicate_insert tOne [1] 9 9 FreeFn.transient
    ⟨[1], 42, 4, FreeFn.static, 1, 0⟩ rfl rfl

/-!
C2.  When inserting a new key while (size + 1) is over the 0.7 load
factor bound, ht_insert first grows the bucket array to twice the
capacity, every entry ends up in the bucket selected by its hash modulo
the new capacity, and every previously stored key is still retrievable
with its original value and size after the insert completes.
-/

/-- C2: with the growth trigger holding and the new key absent, the
triggering ht_insert succeeds, the capacity doubles, every old entry
sits in bucket (hash mod new capacity), and every previously stored key
still yields its original value and size through ht_get_item. -/
theorem c2_growth_preserves (t : Table) (k : Key) (v ds : Nat) (f : FreeFn)
    (hWF : WF t)
    (habs : hash_exists t (t.pfnHash k) = none)
    (htrig : growNeeded t.size t.capacity = true) :
    (ht_insert t k v ds f).1 = HT_OK ∧
      ((ht_insert t k v ds f).2).capacity = t.capacity * HT_GROW_FACT ∧
      (∀ e ∈ allEntries t,
        e ∈ bucketAt ((ht_insert t k v ds f).2).buckets
          (e.hash % (t.capacity * HT_GROW_FACT))) ∧
      (∀ (k2 : Key) (e : Entry), hash_exists t (t.pfnHash k2) = some e →
        ht_get_item (ht_insert t k v ds f).2 k2
          = (HT_OK, some e.pData, e.data_size)) := by
  obtain ⟨t2, heq, hWF2, hph2, _hns2, hperm2, hcap2⟩ :=
    ht_insert_new t k v ds f hWF habs
  rw [heq]
  have hcap2x : t2.capacity = t.capacity * HT_GROW_FACT := by
    rw [hcap2, if_pos htrig]
  refine ⟨rfl, hcap2x, ?_, ?_⟩
  · intro e he
    have hmem2 : e ∈ allEntries t2 :=
      hperm2.mem_iff.mpr (List.mem_cons_of_mem _ he)
    obtain ⟨i, hi, hei⟩ := exists_bucket_of_mem_flatten t2.buckets e hmem2
    have hplc := hWF2.2.1 i hi e hei
    have hlen : t2.buckets.length = t.capacity * HT_GROW_FACT := hcap2x
    rw [hlen] at hplc
    show e ∈ bucketAt t2.buckets (e.hash % (t.capacity * HT_GROW_FACT))
    rw [hplc]
    exact hei
  · intro k2 e hfind
    have he := (hash_exists_some_iff t hWF (t.pfnHash k2) e).mp hfind
    have hmem2 : e ∈ allEntries t2 :=
      hperm2.mem_iff.mpr (List.mem_cons_of_mem _ he.1)
    have hfind2 : hash_exists t2 (t.pfnHash k2) = some e :=
      (hash_exists_some_iff t2 hWF2 (t.pfnHash k2) e).mpr ⟨hmem2, he.2⟩
    show ht_get_item t2 k2 = _
    rw [ht_get_item, hph2, hfind2]

/-- Hash function returning the first key byte (a legal custom hash). -/
def headHash : HashFn := fun k => k.headD 0

/-- Entry with hash 9 stored in the single bucket of c2T. -/
def e9 : Entry := ⟨[9], 77, 3, FreeFn.static, 9, 0⟩

/-- A well-formed one-bucket table over the 0.7 load bound: capacity 1,
one entry, so the next insert triggers growth. -/
def c2T : Table :=
  { buckets := [[e9]], size := 1, pfnHash := headHash, nextStamp := 1 }

theorem c2T_WF : WF c2T :=
  ⟨by decide, by unfold wellPlaced; decide, by decide, by decide,
    by unfold chainsSorted; decide, by decide⟩

/-- C2 witness: inserting key 0x05 into c2T grows the capacity to 2,
relocates the stored entry to bucket 9 mod 2, and keeps key 0x09
retrievable with value 77 and size 3. -/
theorem c2_growth_preserves_witness :
    (ht_insert c2T [5] 99 2 FreeFn.static).1 = HT_OK ∧
      ((ht_insert c2T [5] 99 2 FreeFn.static).2).capacity = 2 ∧
      e9 ∈ bucketAt ((ht_insert c2T [5] 99 2 FreeFn.static).2).buckets
        (9 % 2) ∧
      ht_get_item (ht_insert c2T [5] 99 2 FreeFn.static).2 [9]
        = (HT_OK, some 77, 3) := by
  obtain ⟨h1, h2, h3, h4⟩ :=
    c2_growth_preserves c2T [5] 99 2 FreeFn.static c2T_WF rfl rfl
  exact ⟨h1, h2.trans (by decide), h3 e9 (by decide), h4 [9] e9 rfl⟩

/-!
C5.  In every reachable table state, the entries of any single bucket
chain are in their relative insertion order.  The ghost stamp field
records the global insertion sequence number of each entry and is read
by no operation, so strictly increasing stamps along a chain say exactly
that the chain lists its entries in insertion order.  Reachability
covers init, insert (with its internal growth), remove and
set-hash-function; a remove call that runs into the empty-bucket NULL
dereference (see C4) has no successor state.
-/

/-- C5: every reachable table has strictly increasing ghost insertion
stamps along every bucket chain, so each chain holds its entries in
relative insertion order, including after growth relocations. -/
theorem c5_chain_insertion_order (t : Table) (h : Reach t) :
    chainsSorted t.buckets :=
  (reach_WF t h).2.2.2.2.1

/-- Hash function colliding three string keys into bucket 1, mirroring
dummy_hahser in src/tests.c: hashes 1, 1 + 31, 1 + 62. -/
def collideHash : HashFn := fun k =>
  if k = [1] then 1 else if k = [2] then 32 else if k = [3] then 63 else 0

def c5Ops : List Op :=
  [Op.setHashFunc (some collideHash),
    Op.insert [1] 11 1 FreeFn.static,
    Op.insert [2] 22 1 FreeFn.static,
    Op.insert [3] 33 1 FreeFn.static]

def c5T : Table := (run ht_init c5Ops).getD ht_init

/-- C5 witness: the reachable table with three entries chained in bucket
1 has sorted chains. -/
theorem c5_chain_insertion_order_witness : chainsSorted c5T.buckets :=
  c5_chain_insertion_order c5T ⟨c5Ops, rfl⟩

/-!
C1.  The claim has two halves.  The first half - a successfully inserted
key keeps yielding its stored value and size through ht_get_item until
removed - holds.  The second half - a key never inserted is reported
not-found - fails on the code: lookups compare cached hashes only
(hash_exists), so any never-inserted key whose hash under the active
hash function equals the hash of a stored key is reported found with
the value of the other key.  The counterexample uses a constant hash
function installed through the public ht_set_hash_func.  The amended
claim restricts the second half to keys whose hash differs from the
hash of every stored entry.
-/

def c1TA : Table := (ht_set_hash_func ht_init (some constHash)).2

def c1TB : Table := (ht_insert c1TA [1] 42 4 FreeFn.static).2

/-- C1 counterexample: with the constant hash function installed, after
inserting only the key 0x01, ht_get_item on the never-inserted key 0x02
returns HT_OK with the value stored for 0x01 instead of reporting
not-found. -/
theorem c1_never_inserted_reported_found :
    ht_insert c1TA [1] 42 4 FreeFn.static = (HT_OK, c1TB) ∧
      ht_get_item c1TB [2] = (HT_OK, some 42, 4) ∧
      HT_OK ≠ HT_NOT_FOUND := by
  exact ⟨rfl, rfl, by decide⟩

/-- C1 amended: if a key is inserted once successfully and no later call
removes its hash, then after any sequence of calls (bounded by the
uint32_t entry-count range) ht_get_item still returns HT_OK with the
stored value and recorded size; and any key whose hash differs from the
hash of every stored entry is reported not-found with NULL data and
HT_NO_SIZE. -/
theorem c1_inserted_key_persists (t : Table) (k : Key) (v ds : Nat)
    (f : FreeFn) (ops : List Op) (t1 t2 : Table)
    (hWF : WF t)
    (hbound : (allEntries t).length + 1 + ops.length < U32)
    (hins : ht_insert t k v ds f = (HT_OK, t1))
    (hrun : run t1 ops = some t2)
    (hnorem : ∀ k2 : Key, Op.remove k2 ∈ ops →
      t.pfnHash k2 ≠ t.pfnHash k) :
    ht_get_item t2 k = (HT_OK, some v, ds) ∧
      (∀ k2 : Key, (∀ e ∈ allEntries t2, e.hash ≠ t2.pfnHash k2) →
        ht_get_item t2 k2 = (HT_NOT_FOUND, none, htNoSize)) := by
  have habs : hash_exists t (t.pfnHash k) = none := by
    by_cases hdup : (hash_exists t (t.pfnHash k)).isSome = true
    · rw [ht_insert_dup t k v ds f hdup] at hins
      have h0 : HT_DUPLICATE = HT_OK := congrArg Prod.fst hins
      exact absurd h0 (by decide)
    · exact isSome_false_eq_none _ hdup
  obtain ⟨t1', heq, hWF1, hph1, _hns1, hperm1, _hcap1⟩ :=
    ht_insert_new t k v ds f hWF habs
  have ht1 : t1 = t1' := by
    have h2 : ((HT_OK : Int), t1) = ((HT_OK : Int), t1') := hins.symm.trans heq
    injection h2 with h3 h4
  subst ht1
  have hmem1 : Entry.mk k v ds f (t.pfnHash k) t.nextStamp ∈ allEntries t1 :=
    hperm1.mem_iff.mpr (List.mem_cons_self _ _)
  have hbound1 : (allEntries t1).length + ops.length < U32 := by
    rw [hperm1.length_eq, List.length_cons]
    omega
  have hnorem1 : ∀ k2, Op.remove k2 ∈ ops →
      t1.pfnHash k2 ≠ (Entry.mk k v ds f (t.pfnHash k) t.nextStamp).hash := by
    intro k2 hk2
    rw [hph1]
    exact hnorem k2 hk2
  obtain ⟨hWF2, hmem2, hph2⟩ :=
    run_keeps (Entry.mk k v ds f (t.pfnHash k) t.nextStamp) ops t1 t2
      hWF1 hmem1 hbound1 hnorem1 hrun
  constructor
  · have hfind2 : hash_exists t2 (t.pfnHash k)
        = some (Entry.mk k v ds f (t.pfnHash k) t.nextStamp) :=
      (hash_exists_some_iff t2 hWF2 _ _).mpr ⟨hmem2, rfl⟩
    rw [ht_get_item, hph2, hph1, hfind2]
  · intro k2 hnone
    have hz : hash_exists t2 (t2.pfnHash k2) = none := by
      cases hx : hash_exists t2 (t2.pfnHash k2) with
      | none => rfl
      | some e =>
        have hc := (hash_exists_some_iff t2 hWF2 _ e).mp hx
        exact absurd hc.2 (hnone e hc.1)
    rw [ht_get_item, hz]

def c1Ops : List Op := [Op.insert [2] 7 1 FreeFn.static]

def c1T2 : Table := (run tOne c1Ops).getD ht_init

/-- C1 witness: after inserting key 0x01 into a fresh table and then
key 0x02, key 0x01 still yields value 42 with size 4, and key 0x03
(hash 3, held by no entry) is reported not-found. -/
theorem c1_inserted_key_persists_witness :
    ht_get_item c1T2 [1] = (HT_OK, some 42, 4) ∧
      ht_get_item c1T2 [3] = (HT_NOT_FOUND, none, htNoSize) := by
  have h := c1_inserted_key_persists ht_init [1] 42 4 FreeFn.static
    c1Ops tOne c1T2 ht_init_WF (by decide) rfl rfl
    (by intro k2 hk2; simp [c1Ops] at hk2)
  exact ⟨h.1, h.2 [3] (by decide)⟩

/-!
C7.  Three distinct keys sent to the same bucket by the active hash
function, inserted in order, form one chain; removing the middle one
succeeds, decrements size by one, keeps the first and third keys
retrievable with their original values, and reports the middle key
not-found afterwards.  The same-bucket hypotheses describe the claimed
collision scenario (the capacity stays fixed because the three inserts
stay under the load-factor bound); the proof itself covers it.
-/

/-- C7: after inserting three absent keys with pairwise distinct hashes
landing in one bucket (no growth triggered), removing the second key
succeeds, size drops by one, the first and third keys still yield their
original values and sizes, and the second key is reported not-found. -/
theorem c7_remove_middle (t : Table) (k1 k2 k3 : Key)
    (v1 v2 v3 ds1 ds2 ds3 : Nat) (f1 f2 f3 : FreeFn)
    (hWF : WF t)
    (hbound : (allEntries t).length + 3 < U32)
    (_hb12 : t.pfnHash k1 % t.capacity = t.pfnHash k2 % t.capacity)
    (_hb23 : t.pfnHash k2 % t.capacity = t.pfnHash k3 % t.capacity)
    (_hgrow : 10 * (t.size + 3) ≤ 7 * t.capacity)
    (hne12 : t.pfnHash k1 ≠ t.pfnHash k2)
    (hne13 : t.pfnHash k1 ≠ t.pfnHash k3)
    (hne23 : t.pfnHash k2 ≠ t.pfnHash k3)
    (habs1 : hash_exists t (t.pfnHash k1) = none)
    (habs2 : hash_exists t (t.pfnHash k2) = none)
    (habs3 : hash_exists t (t.pfnHash k3) = none) :
    ∃ t4 : Table,
      ht_remove (ht_insert (ht_insert (ht_insert t k1 v1 ds1 f1).2
          k2 v2 ds2 f2).2 k3 v3 ds3 f3).2 k2 = some (HT_OK, t4) ∧
        t4.size + 1 = (ht_insert (ht_insert (ht_insert t k1 v1 ds1 f1).2
          k2 v2 ds2 f2).2 k3 v3 ds3 f3).2.size ∧
        ht_get_item t4 k1 = (HT_OK, some v1, ds1) ∧
        ht_get_item t4 k3 = (HT_OK, some v3, ds3) ∧
        ht_get_item t4 k2 = (HT_NOT_FOUND, none, htNoSize) := by
  have hall := hash_absent_all t (t.pfnHash k2) hWF.1 hWF.2.1 habs2
  have hall1 := hash_absent_all t (t.pfnHash k1) hWF.1 hWF.2.1 habs1
  have hall3 := hash_absent_all t (t.pfnHash k3) hWF.1 hWF.2.1 habs3
  obtain ⟨tA, heqA, hWFA, hphA, _, hpermA, _⟩ :=
    ht_insert_new t k1 v1 ds1 f1 hWF habs1
  have habs2A : hash_exists tA (tA.pfnHash k2) = none := by
    rw [hphA]
    cases hx : hash_exists tA (t.pfnHash k2) with
    | none => rfl
    | some e =>
      obtain ⟨hmem, hh⟩ := (hash_exists_some_iff tA hWFA _ e).mp hx
      rcases List.mem_cons.mp (hpermA.mem_iff.mp hmem) with rfl | hmem2
      · exact absurd hh hne12
      · exact absurd hh (hall e hmem2)
  obtain ⟨tB, heqB, hWFB, hphB, _, hpermB, _⟩ :=
    ht_insert_new tA k2 v2 ds2 f2 hWFA habs2A
  have hphBA : tB.pfnHash = t.pfnHash := by rw [hphB, hphA]
  have habs3B : hash_exists tB (tB.pfnHash k3) = none := by
    rw [hphBA]
    cases hx : hash_exists tB (t.pfnHash k3) with
    | none => rfl
    | some e =>
      obtain ⟨hmem, hh⟩ := (hash_exists_some_iff tB hWFB _ e).mp hx
      rcases List.mem_cons.mp (hpermB.mem_iff.mp hmem) with rfl | hmem2
      · have : tA.pfnHash k2 = t.pfnHash k3 := hh
        rw [hphA] at this
        exact absurd this hne23
      · rcases List.mem_cons.mp (hpermA.mem_iff.mp hmem2) with rfl | hmem3
        · exact absurd hh hne13
        · exact absurd hh (hall3 e hmem3)
  obtain ⟨tC, heqC, hWFC, hphC, _, hpermC, _⟩ :=
    ht_insert_new tB k3 v3 ds3 f3 hWFB habs3B
  have hphCA : tC.pfnHash = t.pfnHash := by rw [hphC, hphBA]
  rw [heqA]
  show ∃ t4, ht_remove (ht_insert (ht_insert tA k2 v2 ds2 f2).2
      k3 v3 ds3 f3).2 k2 = some (HT_OK, t4) ∧
    t4.size + 1 = (ht_insert (ht_insert tA k2 v2 ds2 f2).2
      k3 v3 ds3 f3).2.size ∧ _ ∧ _ ∧ _
  rw [heqB]
  show ∃ t4, ht_remove (ht_insert tB k3 v3 ds3 f3).2 k2
      = some (HT_OK, t4) ∧
    t4.size + 1 = (ht_insert tB k3 v3 ds3 f3).2.size ∧ _ ∧ _ ∧ _
  rw [heqC]
  -- the three freshly inserted entries
  have hE2A : Entry.mk k2 v2 ds2 f2 (tA.pfnHash k2) tA.nextStamp
      ∈ allEntries tB := hpermB.mem_iff.mpr (List.mem_cons_self _ _)
  have hE2C : Entry.mk k2 v2 ds2 f2 (tA.pfnHash k2) tA.nextStamp
      ∈ allEntries tC := by
    refine hpermC.mem_iff.mpr (List.mem_cons_of_mem _ hE2A)
  have hfindC : hash_exists tC (tC.pfnHash k2)
      = some (Entry.mk k2 v2 ds2 f2 (tA.pfnHash k2) tA.nextStamp) := by
    refine (hash_exists_some_iff tC hWFC _ _).mpr ⟨hE2C, ?_⟩
    show tA.pfnHash k2 = tC.pfnHash k2
    rw [hphA, hphCA]
  obtain ⟨t4, hrem, hWF4, hph4, _, _, hsz4, _, hperm4⟩ :=
    ht_remove_found tC k2 _ hWFC hfindC
  -- arithmetic on sizes
  have hlenA : (allEntries tA).length = (allEntries t).length + 1 := by
    rw [hpermA.length_eq, List.length_cons]
  have hlenB : (allEntries tB).length = (allEntries t).length + 2 := by
    rw [hpermB.length_eq, List.length_cons, hlenA]
  have hlenC : (allEntries tC).length = (allEntries t).length + 3 := by
    rw [hpermC.length_eq, List.length_cons, hlenB]
  have hlen4 : (allEntries tC).length = (allEntries t4).length + 1 := by
    rw [hperm4.length_eq, List.length_cons]
  have hszC : tC.size = (allEntries t).length + 3 := by
    rw [hWFC.2.2.2.1, hlenC, Nat.mod_eq_of_lt hbound]
  have hsz4x : t4.size = (allEntries t).length + 2 := by
    rw [hsz4, hszC]
    have hU : 0 < U32 := by
      show 0 < 2 ^ 32
      omega
    have h1 : (allEntries t).length + 3 + (U32 - 1)
        = (allEntries t).length + 2 + U32 := by omega
    rw [h1, Nat.add_mod_right, Nat.mod_eq_of_lt (by omega)]
  refine ⟨t4, hrem, by rw [hsz4x, hszC], ?_, ?_, ?_⟩
  · -- key 1 is still present in t4
    have hE1C : Entry.mk k1 v1 ds1 f1 (t.pfnHash k1) t.nextStamp
        ∈ allEntries tC := by
      refine hpermC.mem_iff.mpr (List.mem_cons_of_mem _ ?_)
      refine hpermB.mem_iff.mpr (List.mem_cons_of_mem _ ?_)
      exact hpermA.mem_iff.mpr (List.mem_cons_self _ _)
    have hE14 : Entry.mk k1 v1 ds1 f1 (t.pfnHash k1) t.nextStamp
        ∈ allEntries t4 := by
      rcases List.mem_cons.mp (hperm4.mem_iff.mp hE1C) with he | he
      · exfalso
        have : t.pfnHash k1 = tA.pfnHash k2 := congrArg Entry.hash he
        rw [hphA] at this
        exact hne12 this
      · exact he
    have hfind4 : hash_exists t4 (t4.pfnHash k1)
        = some (Entry.mk k1 v1 ds1 f1 (t.pfnHash k1) t.nextStamp) := by
      refine (hash_exists_some_iff t4 hWF4 _ _).mpr ⟨hE14, ?_⟩
      show t.pfnHash k1 = t4.pfnHash k1
      rw [hph4, hphCA]
    rw [ht_get_item, hfind4]
  · -- key 3 is still present in t4
    have hE3C : Entry.mk k3 v3 ds3 f3 (tB.pfnHash k3) tB.nextStamp
        ∈ allEntries tC := hpermC.mem_iff.mpr (List.mem_cons_self _ _)
    have hE34 : Entry.mk k3 v3 ds3 f3 (tB.pfnHash k3) tB.nextStamp
        ∈ allEntries t4 := by
      rcases List.mem_cons.mp (hperm4.mem_iff.mp hE3C) with he | he
      · exfalso
        have : tB.pfnHash k3 = tA.pfnHash k2 := congrArg Entry.hash he
        rw [hphBA, hphA] at this
        exact hne23 this.symm
      · exact he
    have hfind4 : hash_exists t4 (t4.pfnHash k3)
        = some (Entry.mk k3 v3 ds3 f3 (tB.pfnHash k3) tB.nextStamp) := by
      refine (hash_exists_some_iff t4 hWF4 _ _).mpr ⟨hE34, ?_⟩
      show tB.pfnHash k3 = t4.pfnHash k3
      rw [hphBA, hph4, hphCA]
    rw [ht_get_item, hfind4]
  · -- the hash of key 2 is gone from t4
    have hdisC := hWFC.2.2.1
    have hdis4 : List.Pairwise (fun a b : Entry => a.hash ≠ b.hash)
        (Entry.mk k2 v2 ds2 f2 (tA.pfnHash k2) tA.nextStamp
          :: allEntries t4) :=
      (hperm4.pairwise_iff
        (fun hab => fun hba => hab hba.symm)).mp hdisC
    have hph4A : t4.pfnHash = t.pfnHash := by rw [hph4, hphCA]
    have hnone4 : ∀ e ∈ allEntries t4, e.hash ≠ t4.pfnHash k2 := by
      intro e he hc
      have h1 := (List.pairwise_cons.mp hdis4).1 e he
      apply h1
      show tA.pfnHash k2 = e.hash
      rw [hphA, ← hph4A]
      exact hc.symm
    have hz : hash_exists t4 (t4.pfnHash k2) = none := by
      cases hx : hash_exists t4 (t4.pfnHash k2) with
      | none => rfl
      | some e =>
        obtain ⟨hmem, hh⟩ := (hash_exists_some_iff t4 hWF4 _ e).mp hx
        exact absurd hh (hnone4 e hmem)
    rw [ht_get_item, hz]

/-- Fresh table with collideHash installed, mirroring the
test_set_hash_func scenario in src/tests.c. -/
def c7T : Table := (ht_set_hash_func ht_init (some collideHash)).2

/-- After inserting keys 0x01, 0x02, 0x03 (hashes 1, 32, 63, all bucket
1) into c7T. -/
def c7T3 : Table :=
  (ht_insert (ht_insert (ht_insert c7T [1] 11 5 FreeFn.static).2
    [2] 22 6 FreeFn.static).2 [3] 33 6 FreeFn.static).2

/-- The table after removing the middle key 0x02 from c7T3. -/
def c7T4 : Table := ((ht_remove c7T3 [2]).getD (0, ht_init)).2

/-- C7 witness: removing the middle of three same-bucket keys. -/
theorem c7_remove_middle_witness :
    ht_remove c7T3 [2] = some (HT_OK, c7T4) ∧
      c7T4.size + 1 = c7T3.size ∧
      ht_get_item c7T4 [1] = (HT_OK, some 11, 5) ∧
      ht_get_item c7T4 [3] = (HT_OK, some 33, 6) ∧
      ht_get_item c7T4 [2] = (HT_NOT_FOUND, none, htNoSize) := by
  obtain ⟨t4, h1, h2, h3, h4, h5⟩ :=
    c7_remove_middle c7T [1] [2] [3] 11 22 33 5 6 6
      FreeFn.static FreeFn.static FreeFn.static
      (ht_set_hash_func_keeps ht_init (some collideHash) ht_init_WF).1
      (by decide) (by decide) (by decide) (by decide)
      (by decide) (by decide) (by decide) rfl rfl rfl
  have ht4 : c7T4 = t4 := by
    show ((ht_remove c7T3 [2]).getD (0, ht_init)).2 = t4
    have h1x : ht_remove c7T3 [2] = some (HT_OK, t4) := h1
    rw [h1x]
    rfl
  refine ⟨?_, ?_, ?_, ?_, ?_⟩
  · rw [ht4]; exact h1
  · rw [ht4]; exact h2
  · rw [ht4]; exact h3
  · rw [ht4]; exact h4
  · rw [ht4]; exact h5

end HashTableC
